import Mathlib

/-!
Verification of the chart-version selection core (`internal/helm/helm.go`).

The development shallowly embeds the Go source:

* `getLatestVersion`, `getChartVersionsFromClassicRepo` (its pure tail, after
  the HTTP exchange and YAML decoding) and `SelectChartVersion` are translated
  from `internal/helm/helm.go`.
* The semantic-version library the source calls (`Masterminds/semver`) is not
  part of this repository's sources; its parsing, ordering, rendering and
  constraint checking are modelled from the specification (§3 SemanticVersion,
  §6 constraint syntax, and the worked examples of §8).
* Go slice indexing out of range is a runtime fault; it is represented by an
  explicit `GoResult.panic` outcome.
* Go's `sort.Sort` promises a permutation sorted by `Less` and explicitly does
  not promise stability.  It is embedded as `List.insertionSort`; no theorem
  below about the resolver's output relies on the relative order of equal
  versions, except where explicitly examined.
-/

/-! ## Three-way comparators and their laws -/

/-- Laws making a three-way comparator a total preorder: comparison flips under
argument swap, strict outcomes are transitive, and `eq` outcomes are
substitutive on the left. -/
structure LawfulCmp {α : Type} (cmp : α → α → Ordering) : Prop where
  flip : ∀ a b, (cmp a b).swap = cmp b a
  lt_trans : ∀ {a b c}, cmp a b = .lt → cmp b c = .lt → cmp a c = .lt
  eq_left : ∀ {a b c}, cmp a b = .eq → cmp a c = cmp b c

theorem LawfulCmp.eq_refl {α : Type} {cmp : α → α → Ordering}
    (h : LawfulCmp cmp) (a : α) : cmp a a = .eq := by
  have hs := h.flip a a
  cases hh : cmp a a with
  | lt => rw [hh] at hs; simp [Ordering.swap] at hs
  | gt => rw [hh] at hs; simp [Ordering.swap] at hs
  | eq => rfl

theorem LawfulCmp.eq_symm {α : Type} {cmp : α → α → Ordering}
    (h : LawfulCmp cmp) {a b : α} (hab : cmp a b = .eq) : cmp b a = .eq := by
  have hs := h.flip a b
  rw [hab] at hs
  simpa [Ordering.swap] using hs.symm

theorem LawfulCmp.eq_right {α : Type} {cmp : α → α → Ordering}
    (h : LawfulCmp cmp) {a b c : α} (hbc : cmp b c = .eq) : cmp a b = cmp a c := by
  have h1 : cmp c b = .eq := h.eq_symm hbc
  have h2 : cmp c a = cmp b a := h.eq_left h1
  have h3 := h.flip c a
  have h4 := h.flip b a
  rw [h2] at h3
  rw [h3] at h4
  have := congrArg Ordering.swap h4
  simpa [Ordering.swap_swap] using this.symm

theorem LawfulCmp.le_trans {α : Type} {cmp : α → α → Ordering}
    (h : LawfulCmp cmp) {a b c : α}
    (hab : cmp a b ≠ .gt) (hbc : cmp b c ≠ .gt) : cmp a c ≠ .gt := by
  cases h1 : cmp a b with
  | gt => exact absurd h1 hab
  | eq => rw [h.eq_left h1]; exact hbc
  | lt =>
    cases h2 : cmp b c with
    | gt => exact absurd h2 hbc
    | lt => rw [h.lt_trans h1 h2]; simp
    | eq => rw [← h.eq_right h2, h1]; simp

theorem LawfulCmp.not_gt_of_flip_lt {α : Type} {cmp : α → α → Ordering}
    (h : LawfulCmp cmp) {a b : α} (hab : cmp a b ≠ .gt) : cmp b a ≠ .lt := by
  intro hba
  have := h.flip b a
  rw [hba] at this
  simp [Ordering.swap] at this
  exact hab this.symm

/-- Lexicographic combination of two comparators on the same type. -/
theorem LawfulCmp.then_lawful {α : Type} {c₁ c₂ : α → α → Ordering}
    (h₁ : LawfulCmp c₁) (h₂ : LawfulCmp c₂) :
    LawfulCmp (fun a b => (c₁ a b).then (c₂ a b)) := by
  constructor
  · intro a b
    have f1 := h₁.flip a b
    have f2 := h₂.flip a b
    cases hc : c₁ a b <;> rw [hc] at f1 <;> simp [Ordering.swap] at f1 <;>
      simp [Ordering.then, ← f1, ← f2, hc, Ordering.swap]
  · intro a b c hab hbc
    simp only at hab hbc ⊢
    cases h1 : c₁ a b <;> rw [h1] at hab <;> simp [Ordering.then] at hab
    · cases h2 : c₁ b c <;> rw [h2] at hbc <;> simp [Ordering.then] at hbc
      · rw [h₁.lt_trans h1 h2]; rfl
      · rw [← h₁.eq_right h2, h1]; rfl
    · cases h2 : c₁ b c <;> rw [h2] at hbc <;> simp [Ordering.then] at hbc
      · rw [h₁.eq_left h1, h2]; rfl
      · rw [h₁.eq_left h1, h2]
        simp [Ordering.then]
        exact h₂.lt_trans hab hbc
  · intro a b c hab
    simp only at hab ⊢
    cases h1 : c₁ a b <;> rw [h1] at hab <;> simp [Ordering.then] at hab
    rw [h₁.eq_left h1, h₂.eq_left hab]

/-- A comparator transported along a key function stays lawful. -/
theorem LawfulCmp.on_key {α β : Type} {cmp : β → β → Ordering}
    (h : LawfulCmp cmp) (f : α → β) :
    LawfulCmp (fun a b => cmp (f a) (f b)) := by
  constructor
  · intro a b; exact h.flip (f a) (f b)
  · intro a b c hab hbc; exact h.lt_trans hab hbc
  · intro a b c hab; exact h.eq_left hab

/-- Numeric three-way comparison. -/
def cmpNat (a b : Nat) : Ordering :=
  if a < b then .lt else if b < a then .gt else .eq

theorem cmpNat_lawful : LawfulCmp cmpNat := by
  constructor
  · intro a b
    unfold cmpNat
    split_ifs <;> first | rfl | omega
  · intro a b c hab hbc
    unfold cmpNat at hab hbc ⊢
    split_ifs at hab hbc ⊢ <;> first | rfl | omega | simp_all
  · intro a b c hab
    have hh : a = b := by
      unfold cmpNat at hab
      split_ifs at hab <;> first | omega | simp_all
    subst hh
    rfl

/-- Lexicographic list comparison: the empty list orders before any non-empty
list (a shorter prerelease identifier sequence has lower precedence when it is
a prefix). -/
def cmpList {α : Type} (c : α → α → Ordering) : List α → List α → Ordering
  | [], [] => .eq
  | [], _ :: _ => .lt
  | _ :: _, [] => .gt
  | a :: as, b :: bs => (c a b).then (cmpList c as bs)

theorem cmpList_flip {α : Type} {c : α → α → Ordering} (h : LawfulCmp c) :
    ∀ as bs, (cmpList c as bs).swap = cmpList c bs as := by
  intro as
  induction as with
  | nil => intro bs; cases bs <;> simp [cmpList, Ordering.swap]
  | cons a as ih =>
    intro bs
    cases bs with
    | nil => simp [cmpList, Ordering.swap]
    | cons b bs =>
      simp only [cmpList]
      have hf := h.flip a b
      cases hc : c a b <;> rw [hc] at hf <;> simp [Ordering.swap] at hf <;>
        simp [Ordering.then, ← hf, ← ih bs, hc, Ordering.swap]

theorem cmpList_lt_trans {α : Type} {c : α → α → Ordering} (h : LawfulCmp c) :
    ∀ as bs cs, cmpList c as bs = .lt → cmpList c bs cs = .lt →
      cmpList c as cs = .lt := by
  intro as
  induction as with
  | nil =>
    intro bs cs hab hbc
    cases bs with
    | nil => exact hbc
    | cons b bs => cases cs with
      | nil => simp [cmpList] at hbc
      | cons x xs => simp [cmpList]
  | cons a as ih =>
    intro bs cs hab hbc
    cases bs with
    | nil => simp [cmpList] at hab
    | cons b bs =>
      cases cs with
      | nil => simp [cmpList] at hbc
      | cons x xs =>
        simp only [cmpList] at hab hbc ⊢
        cases h1 : c a b <;> rw [h1] at hab <;> simp [Ordering.then] at hab
        · cases h2 : c b x <;> rw [h2] at hbc <;> simp [Ordering.then] at hbc
          · rw [h.lt_trans h1 h2]; rfl
          · rw [← h.eq_right h2, h1]; rfl
        · cases h2 : c b x <;> rw [h2] at hbc <;> simp [Ordering.then] at hbc
          · rw [h.eq_left h1, h2]; rfl
          · rw [h.eq_left h1, h2]
            simp [Ordering.then]
            exact ih bs xs hab hbc

theorem cmpList_eq_left {α : Type} {c : α → α → Ordering} (h : LawfulCmp c) :
    ∀ as bs cs, cmpList c as bs = .eq →
      cmpList c as cs = cmpList c bs cs := by
  intro as
  induction as with
  | nil =>
    intro bs cs hab
    cases bs with
    | nil => rfl
    | cons b bs => simp [cmpList] at hab
  | cons a as ih =>
    intro bs cs hab
    cases bs with
    | nil => simp [cmpList] at hab
    | cons b bs =>
      simp only [cmpList] at hab
      cases h1 : c a b <;> rw [h1] at hab <;> simp [Ordering.then] at hab
      cases cs with
      | nil => simp [cmpList]
      | cons x xs =>
        simp only [cmpList]
        rw [h.eq_left h1, ih bs xs hab]

theorem cmpList_lawful {α : Type} {c : α → α → Ordering} (h : LawfulCmp c) :
    LawfulCmp (cmpList c) :=
  ⟨cmpList_flip h, fun {a b c'} => cmpList_lt_trans h a b c',
    fun {a b c'} => cmpList_eq_left h a b c'⟩

/-! ## Semantic versions

Modelled from the spec: the repository calls the `Masterminds/semver` library
(v1), whose sources are not part of this repository.  §3 of the spec defines
parsed `major.minor.patch[-prerelease][+build]` with the total order: compare
major, then minor, then patch numerically; a version with a prerelease
component is ordered before the equivalent version without one; build metadata
does not affect ordering.  Prerelease components are compared by the standard
semantic-versioning precedence on dot-separated identifiers (numeric
identifiers compare numerically and order before alphanumeric ones). -/

/-- A single prerelease identifier: numeric, or alphanumeric (kept as its
character sequence). -/
inductive PreId where
  | num (n : Nat)
  | str (s : List Char)
deriving DecidableEq, Repr

def cmpChar (a b : Char) : Ordering := cmpNat a.toNat b.toNat

theorem cmpChar_lawful : LawfulCmp cmpChar := cmpNat_lawful.on_key Char.toNat

/-- Numeric identifiers order numerically and before alphanumeric ones;
alphanumeric identifiers order lexicographically by character. -/
def cmpPreId : PreId → PreId → Ordering
  | .num a, .num b => cmpNat a b
  | .num _, .str _ => .lt
  | .str _, .num _ => .gt
  | .str a, .str b => cmpList cmpChar a b

theorem cmpPreId_lawful : LawfulCmp cmpPreId := by
  constructor
  · intro a b
    cases a with
    | num m =>
      cases b with
      | num n => exact cmpNat_lawful.flip m n
      | str s => rfl
    | str s =>
      cases b with
      | num n => rfl
      | str t => exact cmpList_flip cmpChar_lawful s t
  · intro a b c hab hbc
    cases a with
    | num m =>
      cases c with
      | num p =>
        cases b with
        | num n => exact cmpNat_lawful.lt_trans hab hbc
        | str s => exact absurd hbc (by simp [cmpPreId])
      | str s => rfl
    | str s =>
      cases b with
      | num n => exact absurd hab (by simp [cmpPreId])
      | str t =>
        cases c with
        | num p => exact absurd hbc (by simp [cmpPreId])
        | str u => exact cmpList_lt_trans cmpChar_lawful s t u hab hbc
  · intro a b c hab
    cases a with
    | num m =>
      cases b with
      | num n =>
        cases c with
        | num p => exact cmpNat_lawful.eq_left hab
        | str s => rfl
      | str s => exact absurd hab (by simp [cmpPreId])
    | str s =>
      cases b with
      | num n => exact absurd hab (by simp [cmpPreId])
      | str t =>
        cases c with
        | num p => rfl
        | str u => exact cmpList_eq_left cmpChar_lawful s t u hab

/-- Prerelease key: `none` stands for "no prerelease component", which orders
after every prerelease (§3: prerelease orders before the equivalent release). -/
def cmpPre : Option (List PreId) → Option (List PreId) → Ordering
  | none, none => .eq
  | none, some _ => .gt
  | some _, none => .lt
  | some a, some b => cmpList cmpPreId a b

theorem cmpPre_lawful : LawfulCmp cmpPre := by
  constructor
  · intro a b
    cases a <;> cases b <;>
      first
        | rfl
        | exact cmpList_flip cmpPreId_lawful _ _
  · intro a b c hab hbc
    cases a with
    | none =>
      cases b with
      | none => cases c <;> simp_all [cmpPre]
      | some bs => simp [cmpPre] at hab
    | some as =>
      cases c with
      | none => cases b <;> simp_all [cmpPre]
      | some cs =>
        cases b with
        | none => simp [cmpPre] at hbc
        | some bs => exact cmpList_lt_trans cmpPreId_lawful as bs cs hab hbc
  · intro a b c hab
    cases a with
    | none =>
      cases b with
      | none => rfl
      | some bs => simp [cmpPre] at hab
    | some as =>
      cases b with
      | none => simp [cmpPre] at hab
      | some bs =>
        cases c with
        | none => rfl
        | some cs => exact cmpList_eq_left cmpPreId_lawful as bs cs hab

/-- Parsed semantic version (§3): numeric core, prerelease and build-metadata
components kept verbatim. -/
structure SemanticVersion where
  major : Nat
  minor : Nat
  patch : Nat
  prerelease : String
  metadata : String
deriving DecidableEq, Repr

def isDigitCh (c : Char) : Bool := c.isDigit

/-- Characters allowed inside prerelease/build identifiers. -/
def isIdentCh (c : Char) : Bool := c.isAlphanum || c = '-'

def spanP (p : Char → Bool) : List Char → List Char × List Char
  | [] => ([], [])
  | c :: cs =>
    if p c then
      let (t, r) := spanP p cs
      (c :: t, r)
    else ([], c :: cs)

def digitsVal : List Char → Nat → Nat
  | [], acc => acc
  | c :: cs, acc => digitsVal cs (acc * 10 + (c.toNat - 48))

def splitDots : List Char → List (List Char)
  | [] => [[]]
  | c :: cs =>
    if c = '.' then [] :: splitDots cs
    else
      match splitDots cs with
      | [] => [[c]]
      | s :: ss => (c :: s) :: ss

/-- Dot-separated identifier sequences must have non-empty identifiers drawn
from the allowed character set. -/
def validPreSegs (cs : List Char) : Bool :=
  (splitDots cs).all (fun seg => !seg.isEmpty && seg.all isIdentCh)

/-- A dotted segment all of whose characters are digits is a numeric
identifier. -/
def classifyId (seg : List Char) : PreId :=
  if seg.all isDigitCh then .num (digitsVal seg 0) else .str seg

def SemanticVersion.preKey (v : SemanticVersion) : Option (List PreId) :=
  if v.prerelease = "" then none
  else some ((splitDots v.prerelease.data).map classifyId)

/-- Total order of §3: major, minor, patch numerically, then the prerelease
key; build metadata does not participate. -/
def svCompare (a b : SemanticVersion) : Ordering :=
  (cmpNat a.major b.major).then
    ((cmpNat a.minor b.minor).then
      ((cmpNat a.patch b.patch).then (cmpPre a.preKey b.preKey)))

theorem svCompare_lawful : LawfulCmp svCompare :=
  (cmpNat_lawful.on_key SemanticVersion.major).then_lawful
    ((cmpNat_lawful.on_key SemanticVersion.minor).then_lawful
      ((cmpNat_lawful.on_key SemanticVersion.patch).then_lawful
        (cmpPre_lawful.on_key SemanticVersion.preKey)))

def svLe (a b : SemanticVersion) : Prop := svCompare a b ≠ .gt

def svLt (a b : SemanticVersion) : Prop := svCompare a b = .lt

instance : DecidableRel svLe := fun a b => by unfold svLe; infer_instance

instance : DecidableRel svLt := fun a b => by unfold svLt; infer_instance

instance : IsTotal SemanticVersion svLe := by
  constructor
  intro a b
  unfold svLe
  cases h : svCompare a b with
  | lt => left; simp
  | eq => left; simp
  | gt =>
    right
    have hf := svCompare_lawful.flip a b
    rw [h] at hf
    simp [Ordering.swap] at hf
    rw [← hf]
    simp

instance : IsTrans SemanticVersion svLe :=
  ⟨fun _ _ _ => svCompare_lawful.le_trans⟩

theorem not_svLt_of_svLe {a b : SemanticVersion} (h : svLe a b) : ¬ svLt b a :=
  fun hlt => h (by
    have hf := svCompare_lawful.flip b a
    rw [hlt] at hf
    simpa [Ordering.swap] using hf.symm)

theorem not_svLt_self (a : SemanticVersion) : ¬ svLt a a := by
  unfold svLt
  rw [svCompare_lawful.eq_refl a]
  simp

/-! ## Parsing raw version strings

Modelled from the spec: §3 `major.minor.patch[-prerelease][+build]`; an
optional leading `v` is dropped and omitted minor/patch components default to
zero (library behaviour observable through the resolver's rendered output). -/

def identDotCh (c : Char) : Bool := isIdentCh c || c = '.'

/-- Parse the optional `-prerelease` / `+build` tail. -/
def parseTail (mj mn pt : Nat) : List Char → Option SemanticVersion
  | [] => some ⟨mj, mn, pt, "", ""⟩
  | '-' :: rest =>
    let (pre, r2) := spanP identDotCh rest
    if validPreSegs pre then
      match r2 with
      | [] => some ⟨mj, mn, pt, ⟨pre⟩, ""⟩
      | '+' :: rest2 =>
        let (bld, r3) := spanP identDotCh rest2
        if validPreSegs bld && r3.isEmpty then some ⟨mj, mn, pt, ⟨pre⟩, ⟨bld⟩⟩
        else none
      | _ => none
    else none
  | '+' :: rest =>
    let (bld, r3) := spanP identDotCh rest
    if validPreSegs bld && r3.isEmpty then some ⟨mj, mn, pt, "", ⟨bld⟩⟩
    else none
  | _ => none

def parseSemVerChars (cs0 : List Char) : Option SemanticVersion :=
  let cs := match cs0 with
    | 'v' :: rest => rest
    | l => l
  let (majDs, r1) := spanP isDigitCh cs
  if majDs.isEmpty then none
  else
    let mj := digitsVal majDs 0
    match r1 with
    | '.' :: rest =>
      let (minDs, r2) := spanP isDigitCh rest
      if minDs.isEmpty then none
      else
        let mn := digitsVal minDs 0
        match r2 with
        | '.' :: rest2 =>
          let (patDs, r3) := spanP isDigitCh rest2
          if patDs.isEmpty then none
          else parseTail mj mn (digitsVal patDs 0) r3
        | r => parseTail mj mn 0 r
    | r => parseTail mj 0 0 r

def parseSemVer (s : String) : Option SemanticVersion :=
  parseSemVerChars s.data

/-- Rendering of a parsed version, as produced by the library's `String()`:
`major.minor.patch`, `-prerelease` when present, `+metadata` when present. -/
def SemanticVersion.render (v : SemanticVersion) : String :=
  Nat.repr v.major ++ "." ++ Nat.repr v.minor ++ "." ++ Nat.repr v.patch
    ++ (if v.prerelease = "" then "" else "-" ++ v.prerelease)
    ++ (if v.metadata = "" then "" else "+" ++ v.metadata)

example : parseSemVer "1.0.0" = some ⟨1, 0, 0, "", ""⟩ := rfl
example : parseSemVer "1.2.0" = some ⟨1, 2, 0, "", ""⟩ := rfl
example : parseSemVer "2.0.0-beta" = some ⟨2, 0, 0, "beta", ""⟩ := rfl
example : parseSemVer "v1.2.3" = some ⟨1, 2, 3, "", ""⟩ := rfl
example : parseSemVer "v1.2" = some ⟨1, 2, 0, "", ""⟩ := rfl
example : parseSemVer "1.2.3-rc.1+build.5" = some ⟨1, 2, 3, "rc.1", "build.5"⟩ := rfl
example : parseSemVer "not-a-version" = none := rfl
example : parseSemVer "" = none := rfl
example : parseSemVer "1.2.3.4" = none := rfl
example : SemanticVersion.render ⟨2, 0, 0, "beta", ""⟩ = "2.0.0-beta" := rfl
example : SemanticVersion.render ⟨1, 2, 3, "", "build"⟩ = "1.2.3+build" := rfl
example : svCompare ⟨2, 0, 0, "beta", ""⟩ ⟨2, 0, 0, "", ""⟩ = .lt := rfl
example : svCompare ⟨1, 2, 0, "", ""⟩ ⟨2, 0, 0, "beta", ""⟩ = .lt := rfl
example : svCompare ⟨1, 2, 3, "", "b1"⟩ ⟨1, 2, 3, "", "b2"⟩ = .eq := rfl

/-! ## Constraints

Modelled from the spec: §6 constraint syntax — exact version pin, comparison
operators (`=`, `>`, `>=`, `<`, `<=`), caret/tilde range shorthand,
comma-separated conjunctive ranges.  A version carrying a prerelease component
only matches a simple constraint whose reference version itself carries a
prerelease component (required by the §8 worked example where `2.0.0-beta`
does not match `^1.0.0`). -/

inductive CmpOp where
  | eq | gt | ge | lt | le | caret | tilde
deriving DecidableEq, Repr

def isLtO : Ordering → Bool
  | .lt => true
  | _ => false

def isGtO : Ordering → Bool
  | .gt => true
  | _ => false

def isEqO : Ordering → Bool
  | .eq => true
  | _ => false

def splitComma : List Char → List (List Char)
  | [] => [[]]
  | c :: cs =>
    if c = ',' then [] :: splitComma cs
    else
      match splitComma cs with
      | [] => [[c]]
      | s :: ss => (c :: s) :: ss

def parseSimpleConstraint (cs : List Char) : Option (CmpOp × SemanticVersion) :=
  match cs with
  | '>' :: '=' :: rest => (parseSemVerChars rest).map (fun v => (CmpOp.ge, v))
  | '<' :: '=' :: rest => (parseSemVerChars rest).map (fun v => (CmpOp.le, v))
  | '>' :: rest => (parseSemVerChars rest).map (fun v => (CmpOp.gt, v))
  | '<' :: rest => (parseSemVerChars rest).map (fun v => (CmpOp.lt, v))
  | '=' :: rest => (parseSemVerChars rest).map (fun v => (CmpOp.eq, v))
  | '^' :: rest => (parseSemVerChars rest).map (fun v => (CmpOp.caret, v))
  | '~' :: rest => (parseSemVerChars rest).map (fun v => (CmpOp.tilde, v))
  | rest => (parseSemVerChars rest).map (fun v => (CmpOp.eq, v))

def parseConstraint (s : String) : Option (List (CmpOp × SemanticVersion)) :=
  (splitComma s.data).mapM parseSimpleConstraint

/-- One simple constraint checked against one version. -/
def checkSimple (op : CmpOp) (r v : SemanticVersion) : Bool :=
  if v.prerelease ≠ "" && r.prerelease = "" then false
  else
    match op with
    | .eq => isEqO (svCompare v r)
    | .gt => isGtO (svCompare v r)
    | .ge => !(isLtO (svCompare v r))
    | .lt => isLtO (svCompare v r)
    | .le => !(isGtO (svCompare v r))
    | .caret => v.major == r.major && !(isLtO (svCompare v r))
    | .tilde => v.major == r.major && v.minor == r.minor && !(isLtO (svCompare v r))

/-- A comma-separated constraint is a conjunction of simple constraints. -/
def checkConstraint (c : List (CmpOp × SemanticVersion)) (v : SemanticVersion) : Bool :=
  c.all (fun p => checkSimple p.1 p.2 v)

example : parseConstraint "^1.0.0" = some [(CmpOp.caret, ⟨1, 0, 0, "", ""⟩)] := rfl
example : parseConstraint "^3.0.0" = some [(CmpOp.caret, ⟨3, 0, 0, "", ""⟩)] := rfl
example : parseConstraint ">=1.0.0,<2.0.0" =
    some [(CmpOp.ge, ⟨1, 0, 0, "", ""⟩), (CmpOp.lt, ⟨2, 0, 0, "", ""⟩)] := rfl
example : parseConstraint "" = none := rfl
example : parseConstraint "bogus" = none := rfl
example : checkConstraint [(CmpOp.caret, ⟨1, 0, 0, "", ""⟩)] ⟨1, 2, 0, "", ""⟩ = true := rfl
example : checkConstraint [(CmpOp.caret, ⟨1, 0, 0, "", ""⟩)] ⟨2, 0, 0, "beta", ""⟩ = false := rfl

/-! ## Errors and Go results

Error values are kept structured; `HelmError.render` produces the message text
the Go code formats (`%q` is modelled as plain double-quoting, which is exact
for the quote-and-backslash-free strings at issue).  A Go runtime fault
(out-of-range slice index) is a distinguished outcome, not an error value. -/

inductive HelmError where
  | parseVersion (raw : String)
  | parseConstraint (c : String)
  | chartNotFound (chart indexURL : String)
  | invalidRepoURL (url : String)
  | upstream (msg : String)
  | wrapRetrieve (chart repoURL : String) (cause : HelmError)
  | wrapResolve (chart repoURL : String) (cause : HelmError)
deriving DecidableEq, Repr

def quoteS (s : String) : String := "\"" ++ s ++ "\""

def HelmError.render : HelmError → String
  | .parseVersion raw =>
      "error parsing version " ++ quoteS raw ++ ": Invalid Semantic Version"
  | .parseConstraint c => "error parsing constraint " ++ quoteS c
  | .chartNotFound chart idx =>
      "no versions of chart " ++ quoteS chart ++ " found in repository index from "
        ++ quoteS idx
  | .invalidRepoURL url => "repository URL " ++ quoteS url ++ " is invalid"
  | .upstream msg => msg
  | .wrapRetrieve chart repo cause =>
      "error retrieving versions of chart " ++ quoteS chart ++ " from repository "
        ++ quoteS repo ++ ": " ++ cause.render
  | .wrapResolve chart repo cause =>
      "error determining latest version of chart " ++ quoteS chart
        ++ " from repository " ++ quoteS repo ++ ": " ++ cause.render

inductive GoResult (α : Type) where
  | ok (val : α)
  | err (e : HelmError)
  | panic
deriving DecidableEq, Repr

/-! ## The resolver: `getLatestVersion` (helm.go:177-199) -/

/-- The parse loop of helm.go:178-184: parse each raw entry left to right and
stop at the first entry the semver parser rejects. -/
def parseAllVersions : List String → Except String (List SemanticVersion)
  | [] => .ok []
  | v :: vs =>
    match parseSemVer v with
    | none => .error v
    | some sv =>
      match parseAllVersions vs with
      | .error w => .error w
      | .ok svs => .ok (sv :: svs)

/-- helm.go:177-199.  `sort.Sort(semver.Collection(semvers))` produces a
permutation sorted by the semver order (stability is not promised by
`sort.Sort`; it is embedded as an insertion sort).  With an empty constraint
the code reads `semvers[len(semvers)-1]`, which on an empty slice is an
out-of-range fault; with a constraint it walks the sorted list from greatest
to least and returns the first version satisfying it, or `""` with no error. -/
def getLatestVersion (versions : List String) (constraintStr : String) : GoResult String :=
  match parseAllVersions versions with
  | .error raw => .err (.parseVersion raw)
  | .ok semvers =>
    let sorted := List.insertionSort svLe semvers
    if constraintStr = "" then
      match sorted.getLast? with
      | none => .panic
      | some m => .ok m.render
    else
      match parseConstraint constraintStr with
      | none => .err (.parseConstraint constraintStr)
      | some c =>
        match sorted.reverse.find? (fun v => checkConstraint c v) with
        | some m => .ok m.render
        | none => .ok ""

/-! ## The classic fetcher: `getChartVersionsFromClassicRepo` (helm.go:77-132)

The HTTP exchange and the YAML decoding are input/output; the embedding takes
the decoded `entries` mapping of a 200-status response body as an argument (a
Go map, represented as a key-unique association list) and covers the pure tail
of the function: index-URL construction, chart lookup, and extraction of the
`version` field of each entry, in order. -/

structure ChartEntry where
  version : String
deriving DecidableEq, Repr

/-- `strings.TrimSuffix(repoURL, "/")` removes one trailing slash if present. -/
def trimOneTrailingSlash (s : String) : String :=
  if s.data.getLast? = some '/' then ⟨s.data.dropLast⟩ else s

/-- helm.go:82: `fmt.Sprintf("%s/index.yaml", strings.TrimSuffix(repoURL, "/"))`. -/
def indexURLOf (repoURL : String) : String :=
  trimOneTrailingSlash repoURL ++ "/index.yaml"

def getChartVersionsFromClassicRepo (repoURL chart : String)
    (entries : List (String × List ChartEntry)) : GoResult (List String) :=
  let indexURL := indexURLOf repoURL
  match entries.lookup chart with
  | none => .err (.chartNotFound chart indexURL)
  | some es => .ok (es.map (fun e => e.version))

/-! ## The orchestrator: `SelectChartVersion` (helm.go:36-70)

The two fetchers perform network input/output; the embedding abstracts each as
a function argument producing the fetch outcome.  Credentials are passed to
the fetchers — and nowhere else, mirroring helm.go where `creds` flows only
into `SetBasicAuth` / the registry credential callback. -/

structure Credentials where
  username : String
  password : String
deriving DecidableEq, Repr

def strBeginsWith (s p : String) : Bool := p.data.isPrefixOf s.data

def SelectChartVersion
    (classicFetch : String → String → Option Credentials → GoResult (List String))
    (ociFetch : String → Option Credentials → GoResult (List String))
    (repoURL chart constraintStr : String)
    (creds : Option Credentials) : GoResult String :=
  if strBeginsWith repoURL "http://" || strBeginsWith repoURL "https://" then
    match classicFetch repoURL chart creds with
    | .err e => .err (.wrapRetrieve chart repoURL e)
    | .panic => .panic
    | .ok versions =>
      match getLatestVersion versions constraintStr with
      | .ok s => .ok s
      | .err e => .err (.wrapResolve chart repoURL e)
      | .panic => .panic
  else if strBeginsWith repoURL "oci://" then
    match ociFetch repoURL creds with
    | .err e => .err (.wrapRetrieve chart repoURL e)
    | .panic => .panic
    | .ok versions =>
      match getLatestVersion versions constraintStr with
      | .ok s => .ok s
      | .err e => .err (.wrapResolve chart repoURL e)
      | .panic => .panic
  else .err (.invalidRepoURL repoURL)

example : getLatestVersion ["1.0.0", "1.2.0", "2.0.0-beta"] "" = .ok "2.0.0-beta" := rfl
example : getLatestVersion ["1.0.0", "1.2.0", "2.0.0-beta"] "^1.0.0" = .ok "1.2.0" := rfl
example : getLatestVersion ["1.0.0", "1.2.0", "2.0.0-beta"] "^3.0.0" = .ok "" := rfl
example : getLatestVersion ["1.0.0", "not-a-version"] "^1.0.0" =
    .err (.parseVersion "not-a-version") := rfl
example : getLatestVersion [] "" = .panic := rfl
example : getLatestVersion [] "^1.0.0" = .ok "" := rfl
example : getLatestVersion ["v1.2.3"] "" = .ok "1.2.3" := rfl
example : indexURLOf "https://example.com/charts/" = "https://example.com/charts/index.yaml" := rfl
example : indexURLOf "https://example.com/charts" = "https://example.com/charts/index.yaml" := rfl

/-! ## Facts about the sorted walk -/

/-- In a descending-sorted list, the first element satisfying a predicate is
maximal among all satisfying elements. -/
theorem find_desc_max {p : SemanticVersion → Bool} :
    ∀ l : List SemanticVersion, l.Pairwise (fun a b => svLe b a) →
      ∀ {m}, l.find? p = some m →
        p m = true ∧ m ∈ l ∧ ∀ u ∈ l, p u = true → ¬ svLt m u := by
  intro l
  induction l with
  | nil => intro _ m hm; simp at hm
  | cons h t ih =>
    intro hpw m hm
    rw [List.pairwise_cons] at hpw
    obtain ⟨hhead, htail⟩ := hpw
    by_cases hph : p h = true
    · rw [List.find?_cons_of_pos _ hph] at hm
      injection hm with hm
      subst hm
      refine ⟨hph, List.mem_cons_self _ _, ?_⟩
      intro u hu hpu
      rcases List.mem_cons.mp hu with rfl | hu
      · exact not_svLt_self u
      · exact not_svLt_of_svLe (hhead u hu)
    · rw [List.find?_cons_of_neg _ hph] at hm
      obtain ⟨hpm, hmem, hmax⟩ := ih htail hm
      refine ⟨hpm, List.mem_cons_of_mem _ hmem, ?_⟩
      intro u hu hpu
      rcases List.mem_cons.mp hu with rfl | hu
      · exact absurd hpu hph
      · exact hmax u hu hpu

/-- The last element of an ascending-sorted list is maximal. -/
theorem getLast_asc_max :
    ∀ l : List SemanticVersion, l.Pairwise svLe →
      ∀ {m}, l.getLast? = some m → m ∈ l ∧ ∀ u ∈ l, ¬ svLt m u := by
  intro l
  induction l with
  | nil => intro _ m hm; simp at hm
  | cons h t ih =>
    intro hpw m hm
    rw [List.pairwise_cons] at hpw
    obtain ⟨hhead, htail⟩ := hpw
    cases t with
    | nil =>
      rw [List.getLast?_singleton] at hm
      injection hm with hm
      subst hm
      refine ⟨List.mem_singleton_self _, ?_⟩
      intro u hu
      rcases List.mem_cons.mp hu with rfl | hu
      · exact not_svLt_self u
      · simp at hu
    | cons x t' =>
      rw [List.getLast?_cons_cons] at hm
      obtain ⟨hmem, hmax⟩ := ih htail hm
      refine ⟨List.mem_cons_of_mem _ hmem, ?_⟩
      intro u hu
      rcases List.mem_cons.mp hu with rfl | hu
      · exact not_svLt_of_svLe (hhead m hmem)
      · exact hmax u hu

/-- First-failure characterisation of the parse loop: a list containing an
unparsable entry makes `parseAllVersions` fail on the first such entry. -/
theorem parseAll_first_error :
    ∀ vs : List String, (∃ v ∈ vs, parseSemVer v = none) →
      ∃ raw l₁ l₂, vs = l₁ ++ raw :: l₂ ∧
        (∀ u ∈ l₁, parseSemVer u ≠ none) ∧ parseSemVer raw = none ∧
        parseAllVersions vs = .error raw := by
  intro vs
  induction vs with
  | nil => intro h; obtain ⟨v, hv, _⟩ := h; simp at hv
  | cons v vs ih =>
    intro h
    cases hp : parseSemVer v with
    | none =>
      refine ⟨v, [], vs, by simp, by simp, hp, ?_⟩
      unfold parseAllVersions
      rw [hp]
    | some sv =>
      have hrest : ∃ w ∈ vs, parseSemVer w = none := by
        obtain ⟨w, hw, hwn⟩ := h
        rcases List.mem_cons.mp hw with rfl | hw
        · exact absurd hp (by rw [hwn]; simp)
        · exact ⟨w, hw, hwn⟩
      obtain ⟨raw, l₁, l₂, heq, hok, hraw, herr⟩ := ih hrest
      refine ⟨raw, v :: l₁, l₂, by rw [heq]; rfl, ?_, hraw, ?_⟩
      · intro u hu
        rcases List.mem_cons.mp hu with rfl | hu
        · rw [hp]; simp
        · exact hok u hu
      · unfold parseAllVersions
        rw [hp, herr]

theorem insertionSort_pairwise (svs : List SemanticVersion) :
    (List.insertionSort svLe svs).Pairwise svLe :=
  List.sorted_insertionSort svLe svs

theorem insertionSort_rev_pairwise (svs : List SemanticVersion) :
    (List.insertionSort svLe svs).reverse.Pairwise (fun a b => svLe b a) :=
  List.pairwise_reverse.mpr (insertionSort_pairwise svs)

/-! ## The claims -/

/-- C1: with an empty raw version list and an empty constraint string the code
of `getLatestVersion` evaluates `semvers[len(semvers)-1]` on an empty slice —
an out-of-range runtime fault, not the explicit NotFound failure the claim
(and the function's own documentation, which promises an empty string for an
empty list) describes. -/
theorem c1_empty_list_empty_constraint_fault :
    getLatestVersion [] "" = GoResult.panic := rfl

/-- C2: a raw list containing an entry that fails semantic-version parsing
makes `getLatestVersion` fail, for every constraint string, with a
ParseFailure naming the first offending raw entry; no version is returned even
when the list also holds valid versions.  Second conjunct: the spec's worked
example. -/
theorem c2_parse_failure_all_or_nothing :
    (∀ (vs : List String) (cs : String), (∃ v ∈ vs, parseSemVer v = none) →
      ∃ raw l₁ l₂, vs = l₁ ++ raw :: l₂ ∧
        (∀ u ∈ l₁, parseSemVer u ≠ none) ∧ parseSemVer raw = none ∧
        getLatestVersion vs cs = .err (.parseVersion raw)) ∧
    ∀ cs : String,
      getLatestVersion ["1.0.0", "not-a-version"] cs =
        .err (.parseVersion "not-a-version") := by
  constructor
  · intro vs cs h
    obtain ⟨raw, l₁, l₂, heq, hok, hraw, herr⟩ := parseAll_first_error vs h
    refine ⟨raw, l₁, l₂, heq, hok, hraw, ?_⟩
    unfold getLatestVersion
    rw [herr]
  · intro cs
    unfold getLatestVersion
    rw [show parseAllVersions ["1.0.0", "not-a-version"] = .error "not-a-version" from rfl]

theorem c2_witness :
    ∃ raw l₁ l₂, (["1.0.0", "not-a-version"] : List String) = l₁ ++ raw :: l₂ ∧
      (∀ u ∈ l₁, parseSemVer u ≠ none) ∧ parseSemVer raw = none ∧
      getLatestVersion ["1.0.0", "not-a-version"] "^2.0.0" = .err (.parseVersion raw) :=
  c2_parse_failure_all_or_nothing.1 ["1.0.0", "not-a-version"] "^2.0.0"
    ⟨"not-a-version", by simp, rfl⟩

/-- C3 counterexample: the orchestrator performs no InvalidInput validation of
an empty chart name for an http:// repository — with a fetcher whose outcome
is a version list, the call succeeds, so it neither fails with InvalidInput
nor skips the fetch. -/
theorem c3_counterexample_no_invalid_input :
    SelectChartVersion (fun _ _ _ => .ok ["1.2.3"]) (fun _ _ => .panic)
      "http://example.com/repo" "" "" none = .ok "1.2.3" := rfl

/-- C3 amended: for a ClassicHTTP repository URL (prefix `http://` or
`https://`) the orchestrator dispatches to the classic fetcher
unconditionally — also when the chart name is empty — and never produces a
local InvalidInput; an absent chart surfaces later as the fetcher's NotFound,
wrapped with chart and repository URL. -/
theorem c3_amended_no_local_validation :
    ∀ (classicFetch : String → String → Option Credentials → GoResult (List String))
      (ociFetch : String → Option Credentials → GoResult (List String))
      (repoURL chart constraintStr : String) (creds : Option Credentials),
      (strBeginsWith repoURL "http://" || strBeginsWith repoURL "https://") = true →
      SelectChartVersion classicFetch ociFetch repoURL chart constraintStr creds =
        (match classicFetch repoURL chart creds with
         | .err e => .err (.wrapRetrieve chart repoURL e)
         | .panic => .panic
         | .ok versions =>
           match getLatestVersion versions constraintStr with
           | .ok s => .ok s
           | .err e => .err (.wrapResolve chart repoURL e)
           | .panic => .panic) := by
  intro cf ocif url ch cs cr h
  unfold SelectChartVersion
  rw [h]
  simp

theorem c3_amended_witness :
    SelectChartVersion (fun _ _ _ => .err (.upstream "connection refused"))
      (fun _ _ => .panic) "http://example.com/repo" "" "" none =
      .err (.wrapRetrieve "" "http://example.com/repo" (.upstream "connection refused")) ∧
    SelectChartVersion (fun _ _ _ => .err (.upstream "connection refused"))
      (fun _ _ => .panic) "https://example.com/repo" "" "" none =
      .err (.wrapRetrieve "" "https://example.com/repo" (.upstream "connection refused")) ∧
    SelectChartVersion (fun _ _ _ => .ok ["2.0.0"]) (fun _ _ => .panic)
      "https://example.com/repo" "" "" none = .ok "2.0.0" := by
  refine ⟨?_, ?_, ?_⟩
  · rw [c3_amended_no_local_validation _ _ "http://example.com/repo" _ _ _ (by rfl)]
  · rw [c3_amended_no_local_validation _ _ "https://example.com/repo" _ _ _ (by rfl)]
  · rw [c3_amended_no_local_validation _ _ "https://example.com/repo" _ _ _ (by rfl)]
    rfl

/-- C4: when every raw entry parses and the non-empty constraint parses, the
resolver returns the rendered greatest satisfying version: the winner is a
member of the parsed list, satisfies the constraint, and no strictly greater
satisfying member exists — so a version is never selected over a greater
satisfying one.  Final conjunct: the spec's worked example. -/
theorem c4_greatest_satisfying :
    (∀ (vs : List String) (cs : String) (svs : List SemanticVersion)
        (c : List (CmpOp × SemanticVersion)) (w : SemanticVersion),
        parseAllVersions vs = .ok svs → cs ≠ "" → parseConstraint cs = some c →
        w ∈ svs → checkConstraint c w = true →
        ∃ m, m ∈ svs ∧ checkConstraint c m = true ∧
          getLatestVersion vs cs = .ok m.render ∧
          ∀ u ∈ svs, checkConstraint c u = true → ¬ svLt m u) ∧
    getLatestVersion ["1.0.0", "1.2.0", "2.0.0-beta"] "^1.0.0" = .ok "1.2.0" := by
  constructor
  · intro vs cs svs c w hparse hcs hc hw hcw
    have hmemrev : w ∈ (List.insertionSort svLe svs).reverse := by
      rw [List.mem_reverse, List.mem_insertionSort]
      exact hw
    have hsome : ((List.insertionSort svLe svs).reverse.find?
        (fun v => checkConstraint c v)).isSome = true :=
      List.find?_isSome.mpr ⟨w, hmemrev, hcw⟩
    obtain ⟨m, hfind⟩ := Option.isSome_iff_exists.mp hsome
    obtain ⟨hpm, hmem, hmax⟩ := find_desc_max _ (insertionSort_rev_pairwise svs) hfind
    refine ⟨m, ?_, hpm, ?_, ?_⟩
    · rw [← List.mem_insertionSort svLe, ← List.mem_reverse]
      exact hmem
    · simp [getLatestVersion, hparse, hcs, hc, hfind]
    · intro u hu hcu
      apply hmax u _ hcu
      rw [List.mem_reverse, List.mem_insertionSort]
      exact hu
  · rfl

theorem c4_witness :
    ∃ m, m ∈ [(⟨1, 0, 0, "", ""⟩ : SemanticVersion), ⟨1, 2, 0, "", ""⟩, ⟨2, 0, 0, "beta", ""⟩] ∧
      checkConstraint [(CmpOp.caret, ⟨1, 0, 0, "", ""⟩)] m = true ∧
      getLatestVersion ["1.0.0", "1.2.0", "2.0.0-beta"] "^1.0.0" = .ok m.render ∧
      ∀ u ∈ [(⟨1, 0, 0, "", ""⟩ : SemanticVersion), ⟨1, 2, 0, "", ""⟩, ⟨2, 0, 0, "beta", ""⟩],
        checkConstraint [(CmpOp.caret, ⟨1, 0, 0, "", ""⟩)] u = true → ¬ svLt m u :=
  c4_greatest_satisfying.1 ["1.0.0", "1.2.0", "2.0.0-beta"] "^1.0.0" _ _
    ⟨1, 0, 0, "", ""⟩ rfl (by decide) rfl (by simp) rfl

/-- C5: with an empty constraint and a non-empty, fully parsing raw list the
resolver returns the rendering of a maximal parsed version under the §3 order;
that order puts a prerelease strictly before the equivalent release and
ignores build metadata.  Final conjunct: the spec's worked example, where the
winner is the prerelease `2.0.0-beta`. -/
theorem c5_empty_constraint_greatest :
    (∀ (vs : List String) (svs : List SemanticVersion),
        parseAllVersions vs = .ok svs → svs ≠ [] →
        ∃ m, m ∈ svs ∧ getLatestVersion vs "" = .ok m.render ∧
          ∀ u ∈ svs, ¬ svLt m u) ∧
    (∀ a b : SemanticVersion, a.major = b.major → a.minor = b.minor →
      a.patch = b.patch → a.prerelease ≠ "" → b.prerelease = "" → svLt a b) ∧
    (∀ a b : SemanticVersion, a.major = b.major → a.minor = b.minor →
      a.patch = b.patch → a.prerelease = b.prerelease → ¬ svLt a b ∧ ¬ svLt b a) ∧
    getLatestVersion ["1.0.0", "1.2.0", "2.0.0-beta"] "" = .ok "2.0.0-beta" := by
  refine ⟨?_, ?_, ?_, rfl⟩
  · intro vs svs hparse hne
    have hlen0 : (List.insertionSort svLe svs) ≠ [] := by
      intro h0
      have hl : svs.length = 0 := by
        rw [← List.length_insertionSort svLe svs, h0]
        rfl
      exact hne (List.length_eq_zero.mp hl)
    obtain ⟨m, hlast⟩ : ∃ m, (List.insertionSort svLe svs).getLast? = some m := by
      cases hL : (List.insertionSort svLe svs).getLast? with
      | none => exact absurd (List.getLast?_eq_none_iff.mp hL) hlen0
      | some m => exact ⟨m, rfl⟩
    obtain ⟨hmem, hmax⟩ := getLast_asc_max _ (insertionSort_pairwise svs) hlast
    refine ⟨m, ?_, ?_, ?_⟩
    · rw [← List.mem_insertionSort svLe]
      exact hmem
    · simp [getLatestVersion, hparse, hlast]
    · intro u hu
      apply hmax
      rw [List.mem_insertionSort]
      exact hu
  · intro a b h1 h2 h3 h4 h5
    unfold svLt svCompare
    rw [h1, h2, h3]
    simp only [cmpNat_lawful.eq_refl, Ordering.then]
    unfold SemanticVersion.preKey
    rw [if_neg h4, if_pos h5]
    rfl
  · intro a b h1 h2 h3 h4
    have hk : a.preKey = b.preKey := by
      unfold SemanticVersion.preKey
      rw [h4]
    constructor
    · unfold svLt svCompare
      rw [h1, h2, h3, hk]
      simp [cmpNat_lawful.eq_refl, cmpPre_lawful.eq_refl, Ordering.then]
    · unfold svLt svCompare
      rw [h1, h2, h3, hk]
      simp [cmpNat_lawful.eq_refl, cmpPre_lawful.eq_refl, Ordering.then]

theorem c5_witness :
    (∃ m, m ∈ [(⟨1, 0, 0, "", ""⟩ : SemanticVersion), ⟨1, 2, 0, "", ""⟩, ⟨2, 0, 0, "beta", ""⟩] ∧
      getLatestVersion ["1.0.0", "1.2.0", "2.0.0-beta"] "" = .ok m.render ∧
      ∀ u ∈ [(⟨1, 0, 0, "", ""⟩ : SemanticVersion), ⟨1, 2, 0, "", ""⟩, ⟨2, 0, 0, "beta", ""⟩],
        ¬ svLt m u) ∧
    svLt ⟨1, 2, 3, "alpha", ""⟩ ⟨1, 2, 3, "", ""⟩ :=
  ⟨c5_empty_constraint_greatest.1 ["1.0.0", "1.2.0", "2.0.0-beta"] _ rfl (by simp),
   c5_empty_constraint_greatest.2.1 ⟨1, 2, 3, "alpha", ""⟩ ⟨1, 2, 3, "", ""⟩
     rfl rfl rfl (by decide) rfl⟩

/-- C6: when every entry parses, the non-empty constraint parses, and no
parsed version satisfies it, `getLatestVersion` returns the empty string with
no error — an outcome distinct from every failure.  Final conjunct: the spec's
worked example with `^3.0.0`. -/
theorem c6_no_match_empty_result_no_error :
    (∀ (vs : List String) (cs : String) (svs : List SemanticVersion)
        (c : List (CmpOp × SemanticVersion)),
        parseAllVersions vs = .ok svs → cs ≠ "" → parseConstraint cs = some c →
        (∀ v ∈ svs, checkConstraint c v = false) →
        getLatestVersion vs cs = .ok "") ∧
    (∀ e : HelmError, (GoResult.ok "" : GoResult String) ≠ .err e) ∧
    getLatestVersion ["1.0.0", "1.2.0", "2.0.0-beta"] "^3.0.0" = .ok "" := by
  refine ⟨?_, by intro e; simp, rfl⟩
  intro vs cs svs c hparse hcs hc hnone
  have hfind : (List.insertionSort svLe svs).reverse.find?
      (fun v => checkConstraint c v) = none := by
    rw [List.find?_eq_none]
    intro x hx
    have hxs : x ∈ svs := by
      rw [← List.mem_insertionSort svLe, ← List.mem_reverse]
      exact hx
    simp [hnone x hxs]
  simp [getLatestVersion, hparse, hcs, hc, hfind]

theorem c6_witness :
    getLatestVersion ["1.0.0", "1.2.0", "2.0.0-beta"] "^3.0.0" = .ok "" :=
  c6_no_match_empty_result_no_error.1 ["1.0.0", "1.2.0", "2.0.0-beta"] "^3.0.0"
    [⟨1, 0, 0, "", ""⟩, ⟨1, 2, 0, "", ""⟩, ⟨2, 0, 0, "beta", ""⟩]
    [(CmpOp.caret, ⟨3, 0, 0, "", ""⟩)] rfl (by decide) rfl (by decide)

/-- C8: for a classic fetch whose 200 response parses into an entries mapping,
a chart absent from the mapping yields NotFound naming the chart and the index
URL (base URL with one trailing slash trimmed, plus "/index.yaml"); a present
chart yields exactly the version field of each of its entries, in order, with
no sorting and no deduplication. -/
theorem c8_classic_fetch_lookup :
    ∀ (repoURL chart : String) (entries : List (String × List ChartEntry)),
      (entries.lookup chart = none →
        getChartVersionsFromClassicRepo repoURL chart entries =
          .err (.chartNotFound chart (trimOneTrailingSlash repoURL ++ "/index.yaml")) ∧
        (HelmError.chartNotFound chart
            (trimOneTrailingSlash repoURL ++ "/index.yaml")).render =
          "no versions of chart " ++ quoteS chart ++
            " found in repository index from " ++
            quoteS (trimOneTrailingSlash repoURL ++ "/index.yaml")) ∧
      ∀ es, entries.lookup chart = some es →
        getChartVersionsFromClassicRepo repoURL chart entries =
          .ok (es.map (fun e => e.version)) := by
  intro repoURL chart entries
  constructor
  · intro hnone
    exact ⟨by simp [getChartVersionsFromClassicRepo, indexURLOf, hnone], rfl⟩
  · intro es hsome
    simp [getChartVersionsFromClassicRepo, hsome]

theorem c8_witness :
    getChartVersionsFromClassicRepo "https://example.com/charts/" "redis"
        [("nginx", [⟨"1.0.0"⟩])] =
      .err (.chartNotFound "redis" "https://example.com/charts/index.yaml") ∧
    getChartVersionsFromClassicRepo "https://example.com/charts" "nginx"
        [("nginx", [⟨"1.2.3"⟩, ⟨"1.0.0"⟩, ⟨"1.0.0"⟩])] =
      .ok ["1.2.3", "1.0.0", "1.0.0"] :=
  ⟨((c8_classic_fetch_lookup "https://example.com/charts/" "redis"
      [("nginx", [⟨"1.0.0"⟩])]).1 rfl).1,
   (c8_classic_fetch_lookup "https://example.com/charts" "nginx"
      [("nginx", [⟨"1.2.3"⟩, ⟨"1.0.0"⟩, ⟨"1.0.0"⟩])]).2
      [⟨"1.2.3"⟩, ⟨"1.0.0"⟩, ⟨"1.0.0"⟩] rfl⟩

/-- C9: credentials never influence the orchestrator's messages — two calls
differing only in the credentials argument, whose fetchers behave identically,
produce identical results; every error the orchestrator returns is either the
InvalidInput for the URL or a wrapper naming the operation, the chart and the
repository URL, and the rendered wrapper texts embed exactly those. -/
theorem c9_credentials_never_in_errors :
    (∀ (classicFetch : String → String → Option Credentials → GoResult (List String))
        (ociFetch : String → Option Credentials → GoResult (List String))
        (repoURL chart constraintStr : String) (c₁ c₂ : Option Credentials),
        classicFetch repoURL chart c₁ = classicFetch repoURL chart c₂ →
        ociFetch repoURL c₁ = ociFetch repoURL c₂ →
        SelectChartVersion classicFetch ociFetch repoURL chart constraintStr c₁ =
          SelectChartVersion classicFetch ociFetch repoURL chart constraintStr c₂) ∧
    (∀ (classicFetch : String → String → Option Credentials → GoResult (List String))
        (ociFetch : String → Option Credentials → GoResult (List String))
        (repoURL chart constraintStr : String) (creds : Option Credentials)
        (e : HelmError),
        SelectChartVersion classicFetch ociFetch repoURL chart constraintStr creds =
          .err e →
        e = .invalidRepoURL repoURL ∨ (∃ c, e = .wrapRetrieve chart repoURL c) ∨
          ∃ c, e = .wrapResolve chart repoURL c) ∧
    (∀ (chart repoURL : String) (c : HelmError),
      (HelmError.wrapRetrieve chart repoURL c).render =
        "error retrieving versions of chart " ++ quoteS chart ++
          " from repository " ++ quoteS repoURL ++ ": " ++ c.render) ∧
    (∀ (chart repoURL : String) (c : HelmError),
      (HelmError.wrapResolve chart repoURL c).render =
        "error determining latest version of chart " ++ quoteS chart ++
          " from repository " ++ quoteS repoURL ++ ": " ++ c.render) ∧
    ∀ url : String, (HelmError.invalidRepoURL url).render =
      "repository URL " ++ quoteS url ++ " is invalid" := by
  refine ⟨?_, ?_, fun _ _ _ => rfl, fun _ _ _ => rfl, fun _ => rfl⟩
  · intro cf ocif url ch cs c₁ c₂ h1 h2
    unfold SelectChartVersion
    rw [h1, h2]
  · intro cf ocif url ch cs cr e h
    unfold SelectChartVersion at h
    split at h
    · split at h
      · injection h with h
        exact Or.inr (Or.inl ⟨_, h.symm⟩)
      · exact absurd h (by simp)
      · split at h
        · exact absurd h (by simp)
        · injection h with h
          exact Or.inr (Or.inr ⟨_, h.symm⟩)
        · exact absurd h (by simp)
    · split at h
      · split at h
        · injection h with h
          exact Or.inr (Or.inl ⟨_, h.symm⟩)
        · exact absurd h (by simp)
        · split at h
          · exact absurd h (by simp)
          · injection h with h
            exact Or.inr (Or.inr ⟨_, h.symm⟩)
          · exact absurd h (by simp)
      · injection h with h
        exact Or.inl h.symm

theorem c9_witness :
    SelectChartVersion (fun _ _ _ => .err (.upstream "boom"))
        (fun _ _ => .err (.upstream "boom"))
        "https://example.com/charts" "mychart" "^1.0.0"
        (some ⟨"alice", "hunter2"⟩) =
      SelectChartVersion (fun _ _ _ => .err (.upstream "boom"))
        (fun _ _ => .err (.upstream "boom"))
        "https://example.com/charts" "mychart" "^1.0.0" none :=
  c9_credentials_never_in_errors.1 _ _ "https://example.com/charts" "mychart"
    "^1.0.0" (some ⟨"alice", "hunter2"⟩) none rfl rfl

/-- C10: whenever the resolver returns a version, the string is the rendering
of one of the parsed versions (canonical `major.minor.patch` form with
prerelease, leading `v` dropped, omitted components zero-filled) — not
necessarily character-identical to any raw entry: raw `v1.2.3` resolves to
`1.2.3`, and `v1.2` to `1.2.0`. -/
theorem c10_result_is_render_of_parsed :
    (∀ (vs : List String) (cs : String) (svs : List SemanticVersion) (s : String),
        parseAllVersions vs = .ok svs → getLatestVersion vs cs = .ok s →
        s = "" ∨ ∃ m, m ∈ svs ∧ s = m.render) ∧
    getLatestVersion ["v1.2.3"] "" = .ok "1.2.3" ∧
    ¬ (("1.2.3" : String) ∈ ["v1.2.3"]) ∧
    getLatestVersion ["v1.2"] "" = .ok "1.2.0" := by
  refine ⟨?_, rfl, by decide, rfl⟩
  intro vs cs svs s hparse hres
  simp only [getLatestVersion, hparse] at hres
  by_cases hcs : cs = ""
  · rw [if_pos hcs] at hres
    cases hL : (List.insertionSort svLe svs).getLast? with
    | none => rw [hL] at hres; exact absurd hres (by simp)
    | some m =>
      rw [hL] at hres
      right
      refine ⟨m, ?_, ?_⟩
      · have hmem := (getLast_asc_max _ (insertionSort_pairwise svs) hL).1
        rw [← List.mem_insertionSort svLe]
        exact hmem
      · simp at hres
        exact hres.symm
  · rw [if_neg hcs] at hres
    split at hres
    · exact absurd hres (by simp)
    · split at hres
      · next m hF =>
          right
          refine ⟨m, ?_, ?_⟩
          · have hmem := List.mem_of_find?_eq_some hF
            rw [← List.mem_insertionSort svLe, ← List.mem_reverse]
            exact hmem
          · simp at hres
            exact hres.symm
      · simp at hres
        exact Or.inl hres.symm

theorem c10_witness :
    ("1.2.3" : String) = "" ∨
      ∃ m, m ∈ [(⟨1, 2, 3, "", ""⟩ : SemanticVersion)] ∧ "1.2.3" = m.render :=
  c10_result_is_render_of_parsed.1 ["v1.2.3"] "" [⟨1, 2, 3, "", ""⟩] "1.2.3" rfl rfl
